import Mathlib

/-!
Verification of the well-log track script (`LAS-KGS.py`).

The script prepares a depth-indexed curve table (column selection, dropping
incomplete rows, range filtering, a derived min-max-normalized `Vsh` column)
and builds stacked-fraction polygons from component fraction series.

Embedding choices:
  * a table is a list of rows; each row holds the depth index and one
    `Option ℚ` per named curve, `none` standing for the NaN absence marker
    (pandas comparisons with NaN are false, pandas `dropna` removes them,
    and arithmetic propagates them — all reflected below);
  * `pandas` boolean-mask filtering `df[(df.C > lo) & (df.C <= hi)]` becomes
    `List.filter` with the same predicate, absence giving `false`;
  * the fraction/polygon loop of the script (lines 343-358), which indexes
    `series_k[i]` for `i` in `range(len(depths))`, becomes an
    `Option`-valued traversal: `none` models the Python `IndexError` raised
    when a series is exhausted before `depths` is.
-/

namespace WellLog

/-- The named curves of the selected table, plus the derived `Vsh` column. -/
inductive Col where
  | CNPOR | GR | RHOB | DT | MELCAL | SPOR | Vsh
deriving DecidableEq

/-- One row of the curve table: the depth index plus one optional value per
curve (`none` is the absence marker / NaN). -/
structure Row where
  depth : ℚ
  cnpor : Option ℚ
  gr : Option ℚ
  rhob : Option ℚ
  dt : Option ℚ
  melcal : Option ℚ
  spor : Option ℚ
  vsh : Option ℚ
deriving DecidableEq

abbrev Table := List Row

/-- Look a row's value up by column name. -/
def Row.get (r : Row) : Col → Option ℚ
  | Col.CNPOR => r.cnpor
  | Col.GR => r.gr
  | Col.RHOB => r.rhob
  | Col.DT => r.dt
  | Col.MELCAL => r.melcal
  | Col.SPOR => r.spor
  | Col.Vsh => r.vsh

/-- Replace the `Vsh` field of a row. -/
def Row.setVsh (r : Row) (v : Option ℚ) : Row :=
  ⟨r.depth, r.cnpor, r.gr, r.rhob, r.dt, r.melcal, r.spor, v⟩

/-- The pandas mask `(x > low) & (x <= high)`; a NaN compares false. -/
def inRange (low high : ℚ) : Option ℚ → Bool
  | some v => decide (low < v) && decide (v ≤ high)
  | none => false

/-- `filterRange`: keep the rows whose value in column `c` satisfies
`low < v ≤ high`; rows with the absence marker in `c` are dropped
(source line pattern `df_dropped[(df_dropped.C > low) & (df_dropped.C <= high)]`). -/
def filterRange (t : Table) (c : Col) (low high : ℚ) : Table :=
  t.filter (fun r => inRange low high (r.get c))

/-- `dropIncomplete`: `dropna(subset=required, axis=0, how='any')` — remove
every row in which at least one required column holds the absence marker
(source line 89). -/
def dropIncomplete (t : Table) (required : List Col) : Table :=
  t.filter (fun r => required.all (fun c => (r.get c).isSome))

/-- The multi-column filtering stage, transliterated from source lines
121-124: the working variable `df_filt` is reassigned from the same
`df_dropped` on every line. -/
def df_filt (df_dropped : Table) : Table :=
  let df_filt := filterRange df_dropped Col.CNPOR (-15) 50
  let df_filt := filterRange df_dropped Col.GR 0 250
  let df_filt := filterRange df_dropped Col.RHOB 1 3
  let df_filt := filterRange df_dropped Col.DT 30 140
  df_filt

/-- The present (non-NaN) values of one column, in row order. -/
def colVals (t : Table) (c : Col) : List ℚ :=
  t.filterMap (fun r => r.get c)

/-- Pandas `Series.min()`: minimum of the present values, NaN (here `none`)
when no value is present. -/
def colMin (t : Table) (c : Col) : Option ℚ :=
  match colVals t c with
  | [] => none
  | v :: vs => some (vs.foldl min v)

/-- Pandas `Series.max()`: maximum of the present values, NaN (here `none`)
when no value is present. -/
def colMax (t : Table) (c : Col) : Option ℚ :=
  match colVals t c with
  | [] => none
  | v :: vs => some (vs.foldl max v)

/-- The per-row value of `(df.GR - df.GR.min()) / (df.GR.max() - df.GR.min())`
(source line 137). A NaN operand, or the 0/0 arising when max = min, yields
NaN (`none`). -/
def vshVal (t : Table) (r : Row) : Option ℚ :=
  match r.get Col.GR, colMin t Col.GR, colMax t Col.GR with
  | some g, some m, some M => if M - m = 0 then none else some ((g - m) / (M - m))
  | _, _, _ => none

/-- `deriveShaleFraction`: add the min-max-normalized `Vsh` column
(source line 137: `df['Vsh'] = (df.GR - df.GR.min()) / (df.GR.max() - df.GR.min())`).
Total: pandas raises nothing here, it only propagates NaN. -/
def deriveShaleFraction (t : Table) : Table :=
  t.map (fun r => r.setVsh (vshVal t r))

/-! ## Fraction polygon builder

Source lines 343-358 generalized from the hardcoded four series to a list
`css` of component series, exactly along the loop's pattern:
`fraction_k[i] = series_k[i] + ... + series_1[i]` for `i` in
`range(len(depths))`, then `polygon_1 = max_coord + min_coord + fraction_1`
and `polygon_k = fraction_(k-1) + fraction_k[::-1]` for `k > 1`. -/

/-- Traverse a list with an `Option`-valued function, failing when any
element fails — the shape of a Python loop that can raise `IndexError`. -/
def mapOpt {α β : Type} (f : α → Option β) : List α → Option (List β)
  | [] => some []
  | x :: xs =>
    match f x, mapOpt f xs with
    | some y, some ys => some (y :: ys)
    | _, _ => none

/-- The k-th (0-indexed) cumulative fraction list: for each `i` below
`len(depths)`, the pair `(series_0[i] + ... + series_k[i], depths[i])`,
with `none` modelling the `IndexError` of an exhausted series. -/
def fraction (css : List (List ℚ)) (depths : List ℚ) (k : Nat) :
    Option (List (ℚ × ℚ)) :=
  mapOpt (fun i =>
    match mapOpt (fun s => s.get? i) (css.take (k + 1)), depths.get? i with
    | some vs, some d => some (vs.sum, d)
    | _, _ => none)
  (List.range depths.length)

/-- All cumulative fraction lists (`fractions = [fraction1, ..., fractionN]`,
source line 350). -/
def fractions (css : List (List ℚ)) (depths : List ℚ) :
    Option (List (List (ℚ × ℚ))) :=
  mapOpt (fun k => fraction css depths k) (List.range css.length)

/-- Assemble the polygons from the cumulative fraction lists: the first
polygon is `max_coord + min_coord + fraction_1` (source line 354), every
later polygon is the previous fraction followed by the reverse of its own
(source lines 355-357). -/
def assemblePolygons (fracs : List (List (ℚ × ℚ))) (minDepth maxDepth : ℚ) :
    List (List (ℚ × ℚ)) :=
  match fracs with
  | [] => []
  | f0 :: _ =>
    ((0, maxDepth) :: (0, minDepth) :: f0) ::
      (fracs.zip fracs.tail).map (fun p => p.1 ++ p.2.reverse)

/-- The full builder (`polygons = [polygon1, ..., polygonN]`, source
line 358): `none` models the `IndexError` escaping the fraction loop. -/
def polygons (css : List (List ℚ)) (depths : List ℚ) (minDepth maxDepth : ℚ) :
    Option (List (List (ℚ × ℚ))) :=
  (fractions css depths).map (fun fr => assemblePolygons fr minDepth maxDepth)

/-- The cumulative vertex series exactly as the claim words it:
`V[k][i] = (sum of componentSeries[0..k] at i, depths[i])`. -/
def specV (css : List (List ℚ)) (depths : List ℚ) (k : Nat) : List (ℚ × ℚ) :=
  (List.range depths.length).map (fun i =>
    (((css.take (k + 1)).map (fun s => s.getD i 0)).sum, depths.getD i 0))

/-! ## Traversal lemmas -/

theorem mapOpt_eq_some_of_forall {α β : Type} (f : α → Option β) (g : α → β)
    (l : List α) (h : ∀ x ∈ l, f x = some (g x)) : mapOpt f l = some (l.map g) := by
  induction l with
  | nil => rfl
  | cons x xs ih =>
    have hx := h x (List.mem_cons_self x xs)
    have hxs := ih (fun y hy => h y (List.mem_cons_of_mem x hy))
    simp [mapOpt, hx, hxs]

theorem mapOpt_eq_none_iff {α β : Type} (f : α → Option β) (l : List α) :
    mapOpt f l = none ↔ ∃ x ∈ l, f x = none := by
  induction l with
  | nil => simp [mapOpt]
  | cons x xs ih =>
    cases hx : f x with
    | none => simp [mapOpt, hx]
    | some y =>
      cases hxs : mapOpt f xs with
      | none =>
        obtain ⟨z, hz, hfz⟩ := ih.mp hxs
        simp only [mapOpt, hx, hxs, List.mem_cons]
        exact ⟨fun _ => ⟨z, Or.inr hz, hfz⟩, fun _ => trivial⟩
      | some ys => simp [mapOpt, hx, hxs, ← ih]

theorem get?_eq_some_getD {α : Type} (l : List α) (d : α) (i : Nat)
    (h : i < l.length) : l.get? i = some (l.getD i d) := by
  induction l generalizing i with
  | nil => simp at h
  | cons x xs ih =>
    cases i with
    | zero => rfl
    | succ j => exact ih j (Nat.lt_of_succ_lt_succ h)

theorem zip_tail_get? {α : Type} (l : List α) (k : Nat) (a b : α)
    (ha : l.get? k = some a) (hb : l.get? (k + 1) = some b) :
    (l.zip l.tail).get? k = some (a, b) := by
  induction l generalizing k with
  | nil => simp at ha
  | cons x xs ih =>
    cases xs with
    | nil => cases k <;> simp at hb
    | cons y ys =>
      cases k with
      | zero =>
        injection ha with ha
        injection hb with hb
        subst ha
        subst hb
        rfl
      | succ j => exact ih j ha hb

/-! ## Characterizing the fraction traversal -/

/-- When every series is at least as long as the depth sequence, the k-th
fraction succeeds and equals the cumulative vertex series of the claim. -/
theorem fraction_eq_of_le (css : List (List ℚ)) (depths : List ℚ) (k : Nat)
    (h : ∀ s ∈ css, depths.length ≤ s.length) :
    fraction css depths k = some (specV css depths k) := by
  unfold fraction specV
  apply mapOpt_eq_some_of_forall
  intro i hi
  have hi0 : i < depths.length := List.mem_range.mp hi
  have h1 : mapOpt (fun s => s.get? i) (css.take (k + 1)) =
      some ((css.take (k + 1)).map (fun s => s.getD i 0)) := by
    apply mapOpt_eq_some_of_forall
    intro s hs
    exact get?_eq_some_getD s 0 i
      (lt_of_lt_of_le hi0 (h s (List.take_subset (k + 1) css hs)))
  rw [h1, get?_eq_some_getD depths 0 i hi0]

/-- When every series is at least as long as the depth sequence, the whole
fraction list succeeds. -/
theorem fractions_eq_of_le (css : List (List ℚ)) (depths : List ℚ)
    (h : ∀ s ∈ css, depths.length ≤ s.length) :
    fractions css depths =
      some ((List.range css.length).map (fun k => specV css depths k)) := by
  unfold fractions
  apply mapOpt_eq_some_of_forall
  intro k _
  exact fraction_eq_of_le css depths k h

/-- The fraction loop fails exactly when some component series is shorter
than the depth sequence (the Python `IndexError`). -/
theorem fractions_none_iff (css : List (List ℚ)) (depths : List ℚ) :
    fractions css depths = none ↔ ∃ s ∈ css, s.length < depths.length := by
  constructor
  · intro hn
    by_contra hno
    push_neg at hno
    rw [fractions_eq_of_le css depths hno] at hn
    exact Option.noConfusion hn
  · rintro ⟨s, hs, hlen⟩
    unfold fractions
    apply (mapOpt_eq_none_iff _ _).mpr
    have hpos : 0 < css.length := List.length_pos_of_mem hs
    refine ⟨css.length - 1, List.mem_range.mpr (Nat.sub_lt hpos Nat.one_pos), ?_⟩
    unfold fraction
    apply (mapOpt_eq_none_iff _ _).mpr
    refine ⟨s.length, List.mem_range.mpr hlen, ?_⟩
    have htake : css.take (css.length - 1 + 1) = css := by
      rw [Nat.sub_add_cancel hpos]
      simp
    rw [htake]
    have hget : s.get? s.length = none := by
      simp [List.get?_eq_none]
    have hmo : mapOpt (fun s2 => s2.get? s.length) css = none :=
      (mapOpt_eq_none_iff _ _).mpr ⟨s, hs, hget⟩
    rw [hmo]

/-- A successful fraction list forces every series to be at least as long
as the depth sequence. -/
theorem fractions_le_lengths (css : List (List ℚ)) (depths : List ℚ)
    (fr : List (List (ℚ × ℚ))) (hfr : fractions css depths = some fr) :
    ∀ s ∈ css, depths.length ≤ s.length := by
  intro s hs
  by_contra hlt
  push_neg at hlt
  rw [(fractions_none_iff css depths).mpr ⟨s, hs, hlt⟩] at hfr
  exact Option.noConfusion hfr

theorem assemblePolygons_length (fracs : List (List (ℚ × ℚ)))
    (minDepth maxDepth : ℚ) :
    (assemblePolygons fracs minDepth maxDepth).length = fracs.length := by
  cases fracs with
  | nil => rfl
  | cons f0 frt =>
    simp only [assemblePolygons, List.length_cons, List.length_map,
      List.length_zip, List.tail_cons]
    omega

theorem assemblePolygons_head (fracs : List (List (ℚ × ℚ)))
    (minDepth maxDepth : ℚ) (f0 : List (ℚ × ℚ)) (h : fracs.get? 0 = some f0) :
    (assemblePolygons fracs minDepth maxDepth).get? 0 =
      some ((0, maxDepth) :: (0, minDepth) :: f0) := by
  cases fracs with
  | nil => simp at h
  | cons g frt =>
    injection h with h
    subst h
    rfl

theorem assemblePolygons_succ (fracs : List (List (ℚ × ℚ)))
    (minDepth maxDepth : ℚ) (k : Nat) (a b : List (ℚ × ℚ))
    (ha : fracs.get? k = some a) (hb : fracs.get? (k + 1) = some b) :
    (assemblePolygons fracs minDepth maxDepth).get? (k + 1) =
      some (a ++ b.reverse) := by
  cases fracs with
  | nil => simp at ha
  | cons f0 frt =>
    have hz := zip_tail_get? (f0 :: frt) k a b ha hb
    show (((f0 :: frt).zip (f0 :: frt).tail).map
        (fun p => p.1 ++ p.2.reverse)).get? k = some (a ++ b.reverse)
    rw [List.get?_map, hz]
    rfl

/-! ## Concrete tables used as counterexamples and witnesses -/

/-- A row holding only the depth index and a gamma-ray value. -/
def grRow (d g : ℚ) : Row := ⟨d, none, some g, none, none, none, none, none⟩

/-- A three-row table whose gamma-ray column has a tied minimum: 1, 1, 2. -/
def tieTable : Table := [grRow 0 1, grRow 1 1, grRow 2 2]

/-! ## Theorems -/

/-- C1: each `filterRange` line of the multi-column filtering stage reads
from the same dropped table, so the stage's result is the dropped table
restricted only by the last column's bounds `30 < DT ≤ 140`; the CNPOR,
GR and RHOB filters have no effect on it. -/
theorem df_filt_last_filter_only (d : Table) :
    df_filt d = filterRange d Col.DT 30 140 := rfl

set_option maxRecDepth 8000 in
/-- C3: for the single component series `[0.292, 0.333, 0.200, 0.458, 0.292]`,
depths `[0, 1, 2, 3, 4]`, `minDepth = 0`, `maxDepth = 4`, the builder
produces exactly one polygon, with vertex list
`[(0,4), (0,0), (0.292,0), (0.333,1), (0.200,2), (0.458,3), (0.292,4)]`. -/
theorem polygon_singleton_series : polygons [[0.292, 0.333, 0.200, 0.458, 0.292]]
      [0, 1, 2, 3, 4] 0 4 =
    some [[(0, 4), (0, 0), (0.292, 0), (0.333, 1), (0.200, 2), (0.458, 3), (0.292, 4)]] := by
  with_unfolding_all decide

/-- C7: `filterRange` is idempotent — reapplying the same bound to its own
output changes nothing. -/
theorem filterRange_idempotent (t : Table) (c : Col) (low high : ℚ) :
    filterRange (filterRange t c low high) c low high = filterRange t c low high := by
  unfold filterRange
  induction t with
  | nil => rfl
  | cons r rs ih =>
    by_cases h : inRange low high (r.get c) = true
    · simp only [List.filter_cons, h, if_true, ih]
    · simp only [List.filter_cons, h, if_false, ih, Bool.false_eq_true]

/-- C8: `dropIncomplete` retains no row with an absence marker in a required
column, retains exactly the rows of the input whose required columns are all
present, and keeps the retained rows in their input order (sublist). -/
theorem dropIncomplete_exact (t : Table) (required : List Col) :
    (∀ r ∈ dropIncomplete t required, ∀ c ∈ required, (r.get c).isSome = true) ∧
    (∀ r : Row, r ∈ dropIncomplete t required ↔
      r ∈ t ∧ ∀ c ∈ required, (r.get c).isSome = true) ∧
    (dropIncomplete t required).Sublist t := by
  refine ⟨?_, ?_, List.filter_sublist t⟩
  · intro r hr c hc
    have h := (List.mem_filter.mp hr).2
    exact List.all_eq_true.mp h c hc
  · intro r
    rw [dropIncomplete, List.mem_filter, List.all_eq_true]

/-- C5 counterexample: on a zero-row table the code raises nothing — the
assignment `df['Vsh'] = ...` over an empty frame just returns the empty
frame (no `EmptyTableError` exists anywhere in the source). -/
theorem deriveShaleFraction_empty_no_failure :
    deriveShaleFraction ([] : Table) = ([] : Table) := rfl

/-- C5 amended: `deriveShaleFraction` is total and produces one output row
per input row for every table, the zero-row table included; no error is
raised on zero rows. -/
theorem deriveShaleFraction_total (t : Table) :
    (deriveShaleFraction t).length = t.length := by
  simp [deriveShaleFraction]

/-- C6 counterexample: a component series of length 6 against a depth
sequence of length 5 is a length mismatch, yet the builder succeeds (the
extra value is silently ignored) — no error of any kind is raised. -/
theorem length_mismatch_no_error :
    (∃ s ∈ [[(1 : ℚ), 2, 3, 4, 5, 6]],
        s.length ≠ ([(10 : ℚ), 11, 12, 13, 14] : List ℚ).length) ∧
    (polygons [[(1 : ℚ), 2, 3, 4, 5, 6]] [10, 11, 12, 13, 14] 0 4).isSome = true := by
  constructor
  · with_unfolding_all decide
  · with_unfolding_all decide

/-- C6 amended: the builder fails — with the index-out-of-range failure of
the loop, not a named `LengthMismatchError` — exactly when some component
series is shorter than the depth sequence; a longer series is silently
truncated with no error. On failure no polygon list is produced at all
(the failure is the whole result). -/
theorem polygons_error_iff (css : List (List ℚ)) (depths : List ℚ)
    (minDepth maxDepth : ℚ) :
    polygons css depths minDepth maxDepth = none ↔
      ∃ s ∈ css, s.length < depths.length := by
  rw [← fractions_none_iff css depths]
  unfold polygons
  cases h : fractions css depths <;> simp [h]

/-- C2: under equal lengths the builder succeeds, yields one polygon per
component, the polygon of component 0 is the anchor pairs `(0, maxDepth)`,
`(0, minDepth)` prepended to `V[0]`, and the polygon of every component
`k+1` is `V[k]` concatenated with the reverse of `V[k+1]`, where `V` is the
cumulative vertex series of the claim (`specV`). -/
theorem polygons_structure (css : List (List ℚ)) (depths : List ℚ)
    (minDepth maxDepth : ℚ) (hM : ∀ s ∈ css, s.length = depths.length) :
    ∃ P, polygons css depths minDepth maxDepth = some P ∧
      P.length = css.length ∧
      (0 < css.length →
        P.get? 0 = some ((0, maxDepth) :: (0, minDepth) :: specV css depths 0)) ∧
      ∀ k, k + 1 < css.length →
        P.get? (k + 1) =
          some (specV css depths k ++ (specV css depths (k + 1)).reverse) := by
  have hle : ∀ s ∈ css, depths.length ≤ s.length :=
    fun s hs => le_of_eq (hM s hs).symm
  have hfr := fractions_eq_of_le css depths hle
  set fr : List (List (ℚ × ℚ)) :=
    (List.range css.length).map (fun k => specV css depths k) with hfrdef
  have hfrget : ∀ k, k < css.length → fr.get? k = some (specV css depths k) := by
    intro k hk
    rw [hfrdef, List.get?_map, List.get?_range hk]
    rfl
  have hfrlen : fr.length = css.length := by simp [hfrdef]
  refine ⟨assemblePolygons fr minDepth maxDepth, ?_, ?_, ?_, ?_⟩
  · rw [polygons, hfr]
    rfl
  · rw [assemblePolygons_length, hfrlen]
  · intro hpos
    rw [assemblePolygons_head fr minDepth maxDepth _ (hfrget 0 hpos)]
  · intro k hk
    exact assemblePolygons_succ fr minDepth maxDepth k _ _
      (hfrget k (Nat.lt_of_succ_lt hk)) (hfrget (k + 1) hk)

/-- C2 witness: the structure theorem applied to two series of length two. -/
theorem polygons_structure_witness :
    (∀ s ∈ [[(1 : ℚ), 2], [3, 4]], s.length = ([(5 : ℚ), 6] : List ℚ).length) ∧
    ∃ P, polygons [[(1 : ℚ), 2], [3, 4]] [5, 6] 0 9 = some P ∧
      P.length = 2 ∧
      (0 < 2 →
        P.get? 0 = some ((0, 9) :: (0, 0) :: specV [[(1 : ℚ), 2], [3, 4]] [5, 6] 0)) ∧
      ∀ k, k + 1 < 2 →
        P.get? (k + 1) = some (specV [[(1 : ℚ), 2], [3, 4]] [5, 6] k ++
          (specV [[(1 : ℚ), 2], [3, 4]] [5, 6] (k + 1)).reverse) :=
  ⟨by with_unfolding_all decide,
    polygons_structure [[1, 2], [3, 4]] [5, 6] 0 9 (by with_unfolding_all decide)⟩

/-- C9: when every component value is non-negative, the cumulative fraction
values at each depth index are non-decreasing in the component index, so
each polygon's upper boundary never lies left of its lower boundary. -/
theorem cumulative_monotone (css : List (List ℚ)) (depths : List ℚ)
    (fr : List (List (ℚ × ℚ))) (hnn : ∀ s ∈ css, ∀ v ∈ s, 0 ≤ v)
    (hfr : fractions css depths = some fr) (k i : Nat)
    (hk : k + 1 < fr.length) (hi : i < depths.length) :
    ((fr.getD k []).getD i (0, 0)).1 ≤ ((fr.getD (k + 1) []).getD i (0, 0)).1 := by
  have hle := fractions_le_lengths css depths fr hfr
  rw [fractions_eq_of_le css depths hle] at hfr
  injection hfr with hfr
  have hlen : fr.length = css.length := by rw [← hfr]; simp
  have hget : ∀ j, j < css.length → fr.getD j [] = specV css depths j := by
    intro j hj
    rw [← hfr, List.getD_eq_get?, List.get?_map, List.get?_range hj]
    rfl
  have hkc : k + 1 < css.length := hlen ▸ hk
  rw [hget k (Nat.lt_of_succ_lt hkc), hget (k + 1) hkc]
  have hspec : ∀ j, (specV css depths j).getD i (0, 0) =
      ((((css.take (j + 1)).map (fun s => s.getD i 0)).sum, depths.getD i 0)) := by
    intro j
    rw [specV, List.getD_eq_get?, List.get?_map, List.get?_range hi]
    rfl
  rw [hspec k, hspec (k + 1)]
  show ((css.take (k + 1)).map (fun s => s.getD i 0)).sum ≤
    ((css.take (k + 2)).map (fun s => s.getD i 0)).sum
  obtain ⟨s1, hs1⟩ : ∃ s1, css[k + 1]? = some s1 := by
    cases hg : css[k + 1]? with
    | none =>
      have := List.getElem?_eq_none_iff.mp hg
      omega
    | some s1 => exact ⟨s1, rfl⟩
  have hmem : s1 ∈ css := by
    obtain ⟨hlt, heq⟩ := List.getElem?_eq_some.mp hs1
    exact heq ▸ List.getElem_mem hlt
  have htk : css.take (k + 2) = css.take (k + 1) ++ [s1] := by
    rw [List.take_succ, hs1]
    rfl
  rw [htk, List.map_append, List.sum_append]
  have hv : 0 ≤ s1.getD i 0 := by
    have hil : i < s1.length := lt_of_lt_of_le hi (hle s1 hmem)
    rw [List.getD_eq_get _ _ hil]
    exact hnn s1 hmem _ (List.get_mem s1 i hil)
  simp only [List.map_cons, List.map_nil, List.sum_cons, List.sum_nil, add_zero]
  exact le_add_of_nonneg_right hv

/-! ## Column minimum / maximum lemmas -/

theorem foldl_min_le (v : ℚ) (l : List ℚ) : ∀ x ∈ v :: l, l.foldl min v ≤ x := by
  induction l generalizing v with
  | nil =>
    intro x hx
    rcases List.mem_cons.mp hx with h | h
    · exact le_of_eq (h ▸ rfl)
    · simp at h
  | cons y ys ih =>
    intro x hx
    rcases List.mem_cons.mp hx with h1 | h2
    · rw [h1]
      exact le_trans (ih (min v y) (min v y) (List.mem_cons_self _ _)) (min_le_left v y)
    · rcases List.mem_cons.mp h2 with hy | hys
      · rw [hy]
        exact le_trans (ih (min v y) (min v y) (List.mem_cons_self _ _)) (min_le_right v y)
      · exact ih (min v y) x (List.mem_cons_of_mem _ hys)

theorem foldl_min_mem (v : ℚ) (l : List ℚ) : l.foldl min v ∈ v :: l := by
  induction l generalizing v with
  | nil => exact List.mem_cons_self v []
  | cons y ys ih =>
    show ys.foldl min (min v y) ∈ v :: y :: ys
    rcases List.mem_cons.mp (ih (min v y)) with h1 | h2
    · rw [h1]
      rcases min_choice v y with hv | hy
      · rw [hv]
        exact List.mem_cons_self _ _
      · rw [hy]
        exact List.mem_cons_of_mem _ (List.mem_cons_self _ _)
    · exact List.mem_cons_of_mem _ (List.mem_cons_of_mem _ h2)

theorem le_foldl_max (v : ℚ) (l : List ℚ) : ∀ x ∈ v :: l, x ≤ l.foldl max v := by
  induction l generalizing v with
  | nil =>
    intro x hx
    rcases List.mem_cons.mp hx with h | h
    · exact le_of_eq (h ▸ rfl)
    · simp at h
  | cons y ys ih =>
    intro x hx
    rcases List.mem_cons.mp hx with h1 | h2
    · rw [h1]
      exact le_trans (le_max_left v y) (ih (max v y) (max v y) (List.mem_cons_self _ _))
    · rcases List.mem_cons.mp h2 with hy | hys
      · rw [hy]
        exact le_trans (le_max_right v y) (ih (max v y) (max v y) (List.mem_cons_self _ _))
      · exact ih (max v y) x (List.mem_cons_of_mem _ hys)

theorem foldl_max_mem (v : ℚ) (l : List ℚ) : l.foldl max v ∈ v :: l := by
  induction l generalizing v with
  | nil => exact List.mem_cons_self v []
  | cons y ys ih =>
    show ys.foldl max (max v y) ∈ v :: y :: ys
    rcases List.mem_cons.mp (ih (max v y)) with h1 | h2
    · rw [h1]
      rcases max_choice v y with hv | hy
      · rw [hv]
        exact List.mem_cons_self _ _
      · rw [hy]
        exact List.mem_cons_of_mem _ (List.mem_cons_self _ _)
    · exact List.mem_cons_of_mem _ (List.mem_cons_of_mem _ h2)

theorem mem_colVals (t : Table) (c : Col) (v : ℚ) :
    v ∈ colVals t c ↔ ∃ r ∈ t, r.get c = some v := by
  simp [colVals, List.mem_filterMap]

/-- A computed column minimum belongs to the column and bounds it below. -/
theorem colMin_spec (t : Table) (c : Col) (m : ℚ) (h : colMin t c = some m) :
    m ∈ colVals t c ∧ ∀ x ∈ colVals t c, m ≤ x := by
  unfold colMin at h
  cases hv : colVals t c with
  | nil =>
    rw [hv] at h
    exact Option.noConfusion h
  | cons v vs =>
    rw [hv] at h
    injection h with h
    subst h
    exact ⟨hv ▸ foldl_min_mem v vs, fun x hx => foldl_min_le v vs x (hv ▸ hx)⟩

/-- A computed column maximum belongs to the column and bounds it above. -/
theorem colMax_spec (t : Table) (c : Col) (M : ℚ) (h : colMax t c = some M) :
    M ∈ colVals t c ∧ ∀ x ∈ colVals t c, x ≤ M := by
  unfold colMax at h
  cases hv : colVals t c with
  | nil =>
    rw [hv] at h
    exact Option.noConfusion h
  | cons v vs =>
    rw [hv] at h
    injection h with h
    subst h
    exact ⟨hv ▸ foldl_max_mem v vs, fun x hx => le_foldl_max v vs x (hv ▸ hx)⟩

/-- C9 witness: two one-point series with values 1 and 2 give cumulative
values 1 ≤ 3 at the single depth sample. -/
theorem cumulative_monotone_witness :
    ((([[((1 : ℚ), (7 : ℚ))], [(3, 7)]] : List (List (ℚ × ℚ))).getD 0 []).getD 0 (0, 0)).1 ≤
      ((([[((1 : ℚ), (7 : ℚ))], [(3, 7)]] : List (List (ℚ × ℚ))).getD (0 + 1) []).getD 0 (0, 0)).1 :=
  cumulative_monotone [[1], [2]] [7] [[(1, 7)], [(3, 7)]]
    (by with_unfolding_all decide) (by with_unfolding_all decide) 0 0
    (by with_unfolding_all decide) (by with_unfolding_all decide)

/-- C4 counterexample: on the three-row table with gamma-ray values
1, 1, 2 the minimum is tied, so two rows (not exactly one) attain the
normalized value 0. -/
theorem vsh_tied_minimum_counterexample :
    tieTable ≠ ([] : Table) ∧
    (deriveShaleFraction tieTable).countP (fun r => decide (r.vsh = some 0)) = 2 ∧
    (deriveShaleFraction tieTable).countP (fun r => decide (r.vsh = some 0)) ≠ 1 := by
  refine ⟨?_, ?_, ?_⟩ <;> with_unfolding_all decide

/-- C4 amended: whenever the gamma-ray column has minimum `m` strictly below
maximum `M`, every row with a present gamma-ray value gets a `Vsh` value in
`[0, 1]`, equal to 0 exactly on the rows holding `m` and to 1 exactly on the
rows holding `M`; at least one row (possibly several, under ties) attains
each of 0 and 1. -/
theorem vsh_range_and_extremes (t : Table) (m M : ℚ)
    (hm : colMin t Col.GR = some m) (hM : colMax t Col.GR = some M)
    (hlt : m < M) :
    (∀ r ∈ deriveShaleFraction t, ∀ g, r.get Col.GR = some g →
      ∃ v, r.vsh = some v ∧ 0 ≤ v ∧ v ≤ 1 ∧ (v = 0 ↔ g = m) ∧ (v = 1 ↔ g = M)) ∧
    (∃ r ∈ deriveShaleFraction t, r.vsh = some 0) ∧
    (∃ r ∈ deriveShaleFraction t, r.vsh = some 1) := by
  obtain ⟨hmmem, hmle⟩ := colMin_spec t Col.GR m hm
  obtain ⟨hMmem, hMle⟩ := colMax_spec t Col.GR M hM
  have hpos : (0 : ℚ) < M - m := sub_pos.mpr hlt
  have hne : M - m ≠ 0 := ne_of_gt hpos
  refine ⟨?_, ?_, ?_⟩
  · intro r hr g hg
    obtain ⟨r0, hr0, rfl⟩ := List.mem_map.mp hr
    have hg0 : r0.get Col.GR = some g := hg
    have hgv : g ∈ colVals t Col.GR := (mem_colVals t Col.GR g).mpr ⟨r0, hr0, hg0⟩
    have hmg : m ≤ g := hmle g hgv
    have hgM : g ≤ M := hMle g hgv
    refine ⟨(g - m) / (M - m), ?_, ?_, ?_, ?_, ?_⟩
    · show vshVal t r0 = some ((g - m) / (M - m))
      simp [vshVal, hg0, hm, hM, hne]
    · exact div_nonneg (sub_nonneg.mpr hmg) (le_of_lt hpos)
    · exact (div_le_one hpos).mpr (sub_le_sub_right hgM m)
    · rw [div_eq_zero_iff]
      simp [hne, sub_eq_zero]
    · rw [div_eq_one_iff_eq hne, sub_left_inj]
  · obtain ⟨r1, hr1, hgr1⟩ := (mem_colVals t Col.GR m).mp hmmem
    refine ⟨r1.setVsh (vshVal t r1), List.mem_map_of_mem _ hr1, ?_⟩
    show vshVal t r1 = some 0
    simp [vshVal, hgr1, hm, hM, hne, sub_self]
  · obtain ⟨r1, hr1, hgr1⟩ := (mem_colVals t Col.GR M).mp hMmem
    refine ⟨r1.setVsh (vshVal t r1), List.mem_map_of_mem _ hr1, ?_⟩
    show vshVal t r1 = some 1
    simp [vshVal, hgr1, hm, hM, hne, div_self hne]

/-- A two-row table with distinct gamma-ray values 1 and 3. -/
def twoRowTable : Table := [grRow 0 1, grRow 1 3]

/-- C4 amended witness: on the two-row table with gamma-ray 1 and 3. -/
theorem vsh_range_and_extremes_witness :
    (∀ r ∈ deriveShaleFraction twoRowTable, ∀ g, r.get Col.GR = some g →
      ∃ v, r.vsh = some v ∧ 0 ≤ v ∧ v ≤ 1 ∧ (v = 0 ↔ g = 1) ∧ (v = 1 ↔ g = 3)) ∧
    (∃ r ∈ deriveShaleFraction twoRowTable, r.vsh = some 0) ∧
    (∃ r ∈ deriveShaleFraction twoRowTable, r.vsh = some 1) :=
  vsh_range_and_extremes twoRowTable 1 3 (by with_unfolding_all decide)
    (by with_unfolding_all decide) (by norm_num)

/-- C10: when the gamma-ray column's maximum equals its minimum (a one-row
table or a constant column), the normalization divides by zero: no error of
any kind is raised — the function is total, the column is produced with one
value per row — and, as in pandas, each produced value is the NaN marker. -/
theorem vsh_constant_column_nan (t : Table)
    (h : colMin t Col.GR = colMax t Col.GR) :
    (deriveShaleFraction t).length = t.length ∧
    ∀ r ∈ deriveShaleFraction t, r.vsh = none := by
  refine ⟨by simp [deriveShaleFraction], ?_⟩
  intro r hr
  obtain ⟨r0, _, rfl⟩ := List.mem_map.mp hr
  show vshVal t r0 = none
  cases hg : r0.get Col.GR with
  | none => simp [vshVal, hg]
  | some g =>
    cases hmin : colMin t Col.GR with
    | none => simp [vshVal, hg, hmin]
    | some m =>
      cases hmax : colMax t Col.GR with
      | none => simp [vshVal, hg, hmin, hmax]
      | some M =>
        rw [hmin, hmax] at h
        injection h with h
        subst h
        simp [vshVal, hg, hmin, hmax, sub_self]

/-- C10 witness: the one-row table with gamma-ray 5. -/
theorem vsh_constant_column_nan_witness :
    (deriveShaleFraction [grRow 0 5]).length = ([grRow 0 5] : Table).length ∧
    ∀ r ∈ deriveShaleFraction [grRow 0 5], r.vsh = none :=
  vsh_constant_column_nan [grRow 0 5] (by with_unfolding_all decide)

end WellLog
